import Mathlib

/-!
Verification development for a CFG-to-CNF converter (`cnf_converter.py`).

A grammar is modelled, as in the source, as a mapping from nonterminal
names to lists of productions; we use an insertion-ordered association
list, mirroring Python's insertion-ordered `dict` / `defaultdict`.
A production is a list of symbol strings; the sentinel symbol for the
empty string is the one-character string `"ε"`.

Python loops of the form `while changed` / `while queue` are rendered as
bounded iteration: fixpoint passes are iterated `|grammar| + 1` times
(each productive pass adds at least one key out of finitely many, so
this reaches the fixpoint), and worklist loops take explicit fuel and
return `Option`, yielding `none` only when the fuel runs out before the
queue empties.
-/

set_option maxRecDepth 8192

namespace CnfConverter

abbrev Production := List String

abbrev Grammar := List (String × List Production)

/-- Productions recorded for a nonterminal; `[]` when the key is absent
(Python: `grammar.get(nt, [])`). -/
def lookupD (g : Grammar) (nt : String) : List Production :=
  match g with
  | [] => []
  | (k, ps) :: rest => if k = nt then ps else lookupD rest nt

/-- Python's `s in grammar`: the symbol is a key of the mapping. -/
def isNT (g : Grammar) (s : String) : Bool :=
  g.any (fun kv => kv.1 == s)

/-- Append a production under a key, creating the key at the end when it is
new (Python: `defaultdict(list)`; plain `append`, duplicates kept). -/
def addProd (g : Grammar) (nt : String) (prod : Production) : Grammar :=
  match g with
  | [] => [(nt, [prod])]
  | (k, ps) :: rest =>
      if k = nt then (k, ps ++ [prod]) :: rest else (k, ps) :: addProd rest nt prod

/-- Append a production under a key unless already present (Python:
`if prod not in d[nt]: d[nt].append(prod)`, and `set.add` for set-valued
dicts, with insertion order standing in for the set's iteration order). -/
def addProdD (g : Grammar) (nt : String) (prod : Production) : Grammar :=
  match g with
  | [] => [(nt, [prod])]
  | (k, ps) :: rest =>
      if k = nt then (k, if prod ∈ ps then ps else ps ++ [prod]) :: rest
      else (k, ps) :: addProdD rest nt prod

/-! ### Grammar parser (`parse_cfg`)

String manipulation is implemented on `List Char` by structural recursion
(the corresponding core `String` functions use well-founded recursion over
byte positions, which the kernel cannot evaluate). -/

/-- Python `str.strip()`: drop leading and trailing whitespace. -/
def trimL (cs : List Char) : List Char :=
  ((cs.dropWhile Char.isWhitespace).reverse.dropWhile Char.isWhitespace).reverse

def strip (s : String) : String :=
  String.mk (trimL s.toList)

/-- Python `str.split(sep)` for a one-character separator: split at every
occurrence, keeping empty pieces. -/
def splitCh (sep : Char) : List Char → List (List Char)
  | [] => [[]]
  | c :: rest =>
      let r := splitCh sep rest
      if c = sep then [] :: r
      else
        match r with
        | [] => [[c]]
        | h :: t => (c :: h) :: t

/-- Python's `str.split()` with no argument: split on runs of whitespace,
discarding empty pieces (accumulator holds the current token reversed). -/
def splitWsAux : List Char → List Char → List (List Char)
  | [], acc => if acc = [] then [] else [acc.reverse]
  | c :: rest, acc =>
      if c.isWhitespace then
        if acc = [] then splitWsAux rest [] else acc.reverse :: splitWsAux rest []
      else splitWsAux rest (c :: acc)

def splitPyWs (s : String) : List String :=
  (splitWsAux s.toList []).map String.mk

/-- `prod.replace('E', 'ε')`: every occurrence of the character `E` in an
alternative is replaced by the epsilon sentinel character. -/
def replaceE (s : String) : String :=
  String.mk (s.toList.map (fun c => if c = 'E' then 'ε' else c))

/-- Parse one `|`-alternative of a right-hand side. -/
def parseAlt (p : String) : Production :=
  let q := replaceE p
  if q = "ε" then ["ε"]
  else if q.toList.contains ' ' then splitPyWs q
  else q.toList.map Char.toString

/-- Split a line at the first derivation arrow, ASCII `->` or Unicode `→`
(the regex `\s*(->|→)\s*` with `maxsplit=1`; the surrounding whitespace it
absorbs is immaterial because both sides are stripped afterwards). -/
def findArrow : List Char → Option (List Char × List Char)
  | [] => none
  | '→' :: rest => some ([], rest)
  | '-' :: '>' :: rest => some ([], rest)
  | c :: rest => (findArrow rest).map (fun lr => (c :: lr.1, lr.2))

/-- Process one input line: blank lines and lines with no arrow are skipped,
otherwise the right-hand side is split on `|` and each alternative appended
under the left-hand side. -/
def processLine (g : Grammar) (line : String) : Grammar :=
  let l := strip line
  if l = "" then g
  else
    match findArrow l.toList with
    | none => g
    | some lr =>
        let lhs := strip (String.mk lr.1)
        let rhs := strip (String.mk lr.2)
        let alts := (splitCh '|' rhs.toList).map (fun a => strip (String.mk a))
        alts.foldl (fun g a => addProd g lhs (parseAlt a)) g

def parseLines (g : Grammar) (ls : List String) : Grammar :=
  ls.foldl processLine g

/-- `parse_cfg`: strip the whole text, split into lines, process each
(the inputs considered here use `\n` linebreaks, on which Python's
`splitlines` agrees with splitting at `\n` once the text is stripped). -/
def parse_cfg (cfg_str : String) : Grammar :=
  parseLines [] (((splitCh '\n' (strip cfg_str).toList)).map String.mk)

/-! ### Bounded language enumerator (`generate_words`, the second, overriding
definition at the bottom of the module: no word-count cap) -/

structure GenState where
  queue : List (List String)
  words : List String
deriving DecidableEq, Repr

/-- The realized terminal string of a sentential form: the concatenation of
its symbols that are neither nonterminals nor the epsilon sentinel. -/
def realized (g : Grammar) (seq : List String) : String :=
  String.join (seq.filter (fun s => !isNT g s && s ≠ "ε"))

/-- Expand the first nonterminal occurrence of the sequence: one new sequence
per production, with the production spliced in place and any epsilon sentinel
inside it dropped. Empty when the sequence has no nonterminal. -/
def expandFirst (g : Grammar) : List String → List (List String)
  | [] => []
  | s :: rest =>
      if isNT g s then
        (lookupD g s).map (fun prod => prod.filter (fun t => t ≠ "ε") ++ rest)
      else (expandFirst g rest).map (fun ns => s :: ns)

/-- One iteration of the enumerator's `while queue` loop: pop the front
sequence; discard it if its realized length exceeds the bound; record it if it
is all terminals; otherwise enqueue the expansions of its first nonterminal.
Identity on an empty queue. -/
def genStep (g : Grammar) (maxLen : Nat) (st : GenState) : GenState :=
  match st.queue with
  | [] => st
  | seq :: rest =>
      let w := realized g seq
      if w.length > maxLen then { queue := rest, words := st.words }
      else if seq.all (fun s => !isNT g s) then
        { queue := rest
          words := if st.words.contains w then st.words else st.words ++ [w] }
      else { queue := rest ++ expandFirst g seq, words := st.words }

/-- The enumerator run for `fuel` iterations from the seed queue `[[start]]`.
The loop of the source runs until the queue is empty; a run whose final
`queue` is `[]` has reached that point (further iterations change nothing). -/
def genRun (g : Grammar) (start : String) (maxLen fuel : Nat) : GenState :=
  Nat.iterate (genStep g maxLen) fuel { queue := [[start]], words := [] }

/-- The returned value: the words found, filtered once more by the length
bound (`{w for w in words if len(w) <= max_length}`). -/
def generate_words (g : Grammar) (start : String) (maxLen fuel : Nat) : List String :=
  (genRun g start maxLen fuel).words.filter (fun w => w.length ≤ maxLen)

/-! ### Pipeline step 0 (`cfg_to_cnf`): conditional new start symbol -/

def firstKey (g : Grammar) : String :=
  match g with
  | [] => ""
  | kv :: _ => kv.1

/-- `any(start in prod for prods in grammar.values() for prod in prods)`. -/
def startOnRHS (g : Grammar) (start : String) : Bool :=
  g.any (fun kv => kv.2.any (fun prod => prod.contains start))

/-- The dict merge `{**{"S0": [[start]]}, **grammar}`: key `S0` first; if the
grammar already has an `S0` key, its original productions win and the
`[[start]]` production is lost. -/
def mergeS0 (g : Grammar) (start : String) : Grammar :=
  ("S0", if isNT g "S0" then lookupD g "S0" else [[start]])
    :: g.filter (fun kv => !(kv.1 == "S0"))

/-- Step 0 of `cfg_to_cnf`: the fixed name `S0` is inserted as the new start,
but only when the original start symbol occurs on some right-hand side. -/
def step0 (g : Grammar) : Grammar × String :=
  let start := firstKey g
  if startOnRHS g start then (mergeS0 g start, "S0") else (g, start)

/-! ### `remove_null_productions` -/

/-- Initial nullable set: nonterminals owning a production `["ε"]`. -/
def nullableInit (g : Grammar) : List String :=
  g.foldl (fun ns kv => if kv.2.any (fun prod => prod == ["ε"]) && !ns.contains kv.1
    then ns ++ [kv.1] else ns) []

/-- One pass of the nullable fixpoint loop, accumulating additions mid-pass
exactly as the mutable-set loop of the source does. -/
def nullablePass (g : Grammar) (ns : List String) : List String :=
  g.foldl (fun ns kv =>
    kv.2.foldl (fun ns prod =>
      if prod.all (fun s => ns.contains s) && !ns.contains kv.1
      then ns ++ [kv.1] else ns) ns) ns

/-- The `while changed` loop: `|g| + 1` passes reach the fixpoint, since the
set only grows, only holds keys, and a pass that adds nothing is final. -/
def nullableFix (g : Grammar) : List String :=
  Nat.iterate (nullablePass g) (g.length + 1) (nullableInit g)

/-- The variant of `prod` selected by `mask`: walking the production, `j`
counts the nullable positions passed so far, so bit `j` of `mask` is the
source's `(mask >> positions.index(i)) & 1`; a set bit deletes the symbol. -/
def maskDelete (null : List String) (mask : Nat) : List String → Nat → List String
  | [], _ => []
  | s :: rest, j =>
      if null.contains s then
        if (mask >>> j) % 2 = 1 then maskDelete null mask rest (j + 1)
        else s :: maskDelete null mask rest (j + 1)
      else s :: maskDelete null mask rest j

/-- All `2^k` nullable-deletion variants of a production, in mask order. -/
def nullDeletions (null : List String) (prod : List String) : List (List String) :=
  (List.range (2 ^ (prod.filter (fun s => null.contains s)).length)).map
    (fun mask => maskDelete null mask prod 0)

/-- The rebuilding loop of `remove_null_productions`, parametric in the
nullable set: drop `["ε"]` productions; emit every nullable-deletion variant
of the others; an emptied variant is kept as `["ε"]` only under the start
symbol; deduplicate per nonterminal. -/
def nullRebuild (null : List String) (start : String) (g : Grammar) : Grammar :=
  g.foldl (fun ng kv =>
    kv.2.foldl (fun ng prod =>
      if prod = ["ε"] then ng
      else
        (nullDeletions null prod).foldl (fun ng np =>
          if np = [] then
            if kv.1 = start then addProdD ng kv.1 ["ε"] else ng
          else addProdD ng kv.1 np) ng) ng) []

def remove_null_productions (g : Grammar) (start : String) : Grammar :=
  nullRebuild (nullableFix g) start g

/-! ### `remove_unit_productions` -/

/-- State of the unit-closure search for one nonterminal. -/
structure UState where
  queue : List String
  visited : List String
  acc : List Production
deriving Repr

/-- Process the productions of one dequeued nonterminal: a production with
`len(prod) == 1 and prod[0] in grammar` is followed (enqueued once, guarded
by `visited`); any other production is collected, deduplicated. -/
def unitVisit (g : Grammar) (st : UState) (current : String) : UState :=
  (lookupD g current).foldl (fun st prod =>
    if prod.length = 1 && isNT g (prod.headD "") then
      if st.visited.contains (prod.headD "") then st
      else { st with queue := st.queue ++ [prod.headD ""],
                     visited := st.visited ++ [prod.headD ""] }
    else if st.acc.contains prod then st
    else { st with acc := st.acc ++ [prod] }) st

/-- The `while queue` loop of the closure search. Every enqueue adds a fresh
key to `visited`, so at most `|g|` nonterminals are ever enqueued after the
seed; fuel `|g| + 1` therefore always suffices, and `none` is unreachable in
the uses below. -/
def unitLoop (g : Grammar) : Nat → UState → Option (List Production)
  | fuel, st =>
      match st.queue, fuel with
      | [], _ => some st.acc
      | _ :: _, 0 => Option.none
      | c :: rest, Nat.succ fuel =>
          unitLoop g fuel (unitVisit g { queue := rest, visited := st.visited, acc := st.acc } c)

/-- `remove_unit_productions`: for each nonterminal, assign the closure of
non-unit productions reachable through unit chains; a nonterminal whose
closure is empty gets no key. -/
def remove_unit_productions (g : Grammar) : Option Grammar := do
  let entries ← g.mapM (fun kv =>
    (unitLoop g (g.length + 1) { queue := [kv.1], visited := [], acc := [] }).map
      (fun acc => (kv.1, acc)))
  pure (entries.filter (fun kv => !kv.2.isEmpty))

/-! ### `remove_useless_symbols` -/

def generatingInit (g : Grammar) : List String :=
  g.foldl (fun gs kv =>
    kv.2.foldl (fun gs prod =>
      if prod.all (fun s => !isNT g s) && !gs.contains kv.1
      then gs ++ [kv.1] else gs) gs) []

def generatingPass (g : Grammar) (gs : List String) : List String :=
  g.foldl (fun gs kv =>
    kv.2.foldl (fun gs prod =>
      if prod.all (fun s => gs.contains s || !isNT g s) && !gs.contains kv.1
      then gs ++ [kv.1] else gs) gs) gs

def generatingFix (g : Grammar) : List String :=
  Nat.iterate (generatingPass g) (g.length + 1) (generatingInit g)

/-- Total number of symbol occurrences in the grammar: a bound on the
enqueues the reachability search can perform. -/
def grammarSize (g : Grammar) : Nat :=
  g.foldl (fun n kv => kv.2.foldl (fun n prod => n + prod.length) n) 0

/-- The reachability worklist loop: pop a nonterminal; if new, mark it
reachable and enqueue the not-yet-reachable nonterminals of its productions. -/
def reachLoop (g : Grammar) : Nat → List String → List String → Option (List String)
  | _, [], reach => some reach
  | 0, _ :: _, _ => none
  | Nat.succ fuel, nt :: queue, reach =>
      if reach.contains nt then reachLoop g fuel queue reach
      else
        let reach' := reach ++ [nt]
        let queue' := (lookupD g nt).foldl (fun q prod =>
          prod.foldl (fun q s =>
            if isNT g s && !reach'.contains s then q ++ [s] else q) q) queue
        reachLoop g fuel queue' reach'

/-- `remove_useless_symbols`: keep generating nonterminals and their
productions over generating-or-terminal symbols (an emptied production list
keeps its key, as the dict comprehension does), then keep what is reachable
from the start symbol in the resulting grammar. -/
def remove_useless_symbols (g : Grammar) (start : String) : Option Grammar := do
  let gen := generatingFix g
  let g1 := (g.filter (fun kv => gen.contains kv.1)).map (fun kv =>
    (kv.1, kv.2.filter (fun prod => prod.all (fun s => gen.contains s || !isNT g s))))
  let reach ← reachLoop g1 (grammarSize g1 + g1.length + 1) [start] []
  pure (g1.filter (fun kv => reach.contains kv.1))

/-! ### `convert_to_cnf` -/

/-- Python `str.islower()` for a one-character symbol, over the ASCII-plus-ε
alphabet the converter's symbols are drawn from (`'ε'` is a cased lowercase
letter for Python). -/
def pyIsLowerSym (s : String) : Bool :=
  match s.toList with
  | [c] => c.isLower || c = 'ε'
  | _ => false

/-- A cased character of that alphabet. -/
def isCasedChar (c : Char) : Bool :=
  c.isAlpha || c = 'ε'

/-- Python `str.isupper()`: some cased character, and no cased character that
is not uppercase (digits are uncased, so `"T1"` counts as uppercase). -/
def pyIsUpper (s : String) : Bool :=
  s.toList.any isCasedChar && s.toList.all (fun c => !isCasedChar c || c.isUpper)

/-- Step 1 of `convert_to_cnf`: in productions longer than one symbol,
replace each single lowercase terminal by a fresh `T<n>` nonterminal (one per
distinct terminal, reused), then append the `T<n> → terminal` productions. -/
def isolateTerminals (g : Grammar) : Grammar :=
  let st := g.foldl (fun (st : Grammar × List (String × String) × Nat) kv =>
    kv.2.foldl (fun (st : Grammar × List (String × String) × Nat) prod =>
      if prod.length > 1 then
        let r := prod.foldl (fun (r : List String × List (String × String) × Nat) s =>
          if pyIsLowerSym s then
            match r.2.1.lookup s with
            | some v => (r.1 ++ [v], r.2.1, r.2.2)
            | none =>
                let v := "T" ++ toString r.2.2
                (r.1 ++ [v], r.2.1 ++ [(s, v)], r.2.2 + 1)
          else (r.1 ++ [s], r.2.1, r.2.2)) ([], st.2.1, st.2.2)
        (addProd st.1 kv.1 r.1, r.2.1, r.2.2)
      else (addProd st.1 kv.1 prod, st.2.1, st.2.2)) st) (([] : Grammar), [], 1)
  st.2.1.foldl (fun ng tv => addProd ng tv.2 [tv.1]) st.1

/-- State of the binarization stage: the grammar being built (set-valued in
the source; insertion-ordered dedup here), the pair-to-variable map, and the
`X<n>` counter. -/
structure BinState where
  fg : Grammar
  pm : List ((String × String) × String)
  ctr : Nat
deriving Repr

/-- The source's `book_pair_map` dict literal written with its duplicate
keys resolved as Python does (the last binding of a repeated key wins:
`("S","A") ↦ "SA"` and `("A","S") ↦ "AS"`). -/
def book_pair_map : List ((String × String) × String) :=
  [(("S", "A"), "SA"), (("U", "B"), "UB"), (("A", "A1"), "AA1"),
   (("A", "S"), "AS"), (("S", "A1"), "SA1"), (("T1", "B"), "T1B"),
   (("A", "A"), "AA")]

/-- `get_var_for_pair`: book-style name if the pair has one (recording the
pair's production only when that name is not yet a key), else the variable
already mapped to the pair, else a fresh `X<n>` recorded in both maps. -/
def get_var_for_pair (st : BinState) (pair : String × String) : String × BinState :=
  match book_pair_map.lookup pair with
  | some name =>
      if isNT st.fg name then (name, st)
      else (name, { st with fg := addProdD st.fg name [pair.1, pair.2] })
  | none =>
      match st.pm.lookup pair with
      | some v => (v, st)
      | none =>
          let v := "X" ++ toString st.ctr
          (v, { fg := addProdD st.fg v [pair.1, pair.2],
                pm := st.pm ++ [(pair, v)], ctr := st.ctr + 1 })

/-- The `while len(current) > 2` loop for one production: take the variable
for the pair of the first two symbols, add `prev → (current[0], newNt)`, and
continue from `[newNt] ++ current[2:]`; the final (length ≤ 2) remainder is
added under the last owner. `fuel` is instantiated with the production's
length, which bounds the iterations since each one shortens `current`. -/
def binarizeProd (g0 : BinState) (nt : String) (prod : List String) : BinState :=
  go prod.length g0 nt prod
where
  go : Nat → BinState → String → List String → BinState
    | 0, st, prevNt, current => { st with fg := addProdD st.fg prevNt current }
    | Nat.succ fuel, st, prevNt, current =>
        match current with
        | a :: b :: _ :: _ =>
            let r := get_var_for_pair st (a, b)
            let st := { r.2 with fg := addProdD r.2.fg prevNt [a, r.1] }
            go fuel st r.1 (r.1 :: current.drop 2)
        | _ => { st with fg := addProdD st.fg prevNt current }

/-- Step 2 of `convert_to_cnf`: binarize every production. -/
def binarize (g : Grammar) : Grammar :=
  (g.foldl (fun (st : BinState) kv =>
    kv.2.foldl (fun st prod => binarizeProd st kv.1 prod) st)
    { fg := [], pm := [], ctr := 1 }).fg

/-- The final cleaning pass of `convert_to_cnf`. The productions reaching
this pass are tuples (the binarization stage adds them with
`set.add(tuple(...))`) while the guard reads `if prod == ['ε']`; in Python a
tuple never equals a list, so that guard — and the `nt == start` check
nested under it — is dead code. Every length-1 production is therefore
kept, `('ε',)` under non-start nonterminals included; a length-2 production
is kept only when both symbols are uppercase strings; everything else is
dropped, with no replacement. The `start` argument is carried for signature
fidelity but, like in the source, never influences the result. -/
def cleanGrammar (g : Grammar) (start : String) : Grammar :=
  g.foldl (fun cg kv =>
    kv.2.foldl (fun cg prod =>
      if prod.length = 1 then addProd cg kv.1 prod
      else if prod.length = 2 && prod.all pyIsUpper then addProd cg kv.1 prod
      else cg) cg) []

def convert_to_cnf (g : Grammar) (start : String) : Grammar :=
  cleanGrammar (binarize (isolateTerminals g)) start

/-- The `cfg_to_cnf` pipeline, returning the final grammar and the start
symbol it uses (the source returns the formatted text of this grammar plus
step snapshots; the formatting is not needed by any claim). -/
def cfg_to_cnf_pipeline (g : Grammar) : Option (Grammar × String) := do
  let gs := step0 g
  let g1 := remove_null_productions gs.1 gs.2
  let g2 ← remove_unit_productions g1
  let g3 ← remove_useless_symbols g2 gs.2
  pure (convert_to_cnf g3 gs.2, gs.2)

/-- Modelled from the spec: the strict-CNF validator `isStrictCnf` (named
`is_cnf` by the repository's tests) is absent from the source; per the spec,
every production must be `["ε"]` (only under `start`), a single terminal
(a symbol that is not a nonterminal of the grammar — the epsilon sentinel
does not qualify), or two nonterminals. -/
def isStrictCnf (g : Grammar) (start : String) : Bool :=
  g.all (fun kv => kv.2.all (fun prod =>
    (prod == ["ε"] && kv.1 == start) ||
    (prod.length == 1 && prod.all (fun s => !isNT g s && s ≠ "ε")) ||
    (prod.length == 2 && prod.all (fun s => isNT g s))))

/-! ### Helper lemmas -/

theorem foldl_inv {α σ : Type} (P : σ → Prop) (f : σ → α → σ) :
    ∀ (l : List α) (init : σ), P init → (∀ s a, a ∈ l → P s → P (f s a)) →
      P (l.foldl f init) := by
  intro l
  induction l with
  | nil => intro init h _; exact h
  | cons a t ih =>
      intro init h hstep
      exact ih (f init a) (hstep init a (List.mem_cons_self a t) h)
        (fun s b hb => hstep s b (List.mem_cons_of_mem a hb))

theorem lookupD_addProd (g : Grammar) (k : String) (p : Production) (nt : String) :
    lookupD (addProd g k p) nt =
      if k = nt then lookupD g nt ++ [p] else lookupD g nt := by
  induction g with
  | nil => by_cases hk : k = nt <;> simp [addProd, lookupD, hk]
  | cons kv rest ih =>
      obtain ⟨k', ps⟩ := kv
      by_cases hk : k' = k
      · subst hk
        by_cases hn : k' = nt <;> simp [addProd, lookupD, hn]
      · by_cases hn : k' = nt
        · subst hn
          have hkn : ¬ k = k' := fun h => hk h.symm
          simp [addProd, hk, lookupD, hkn]
        · simp [addProd, hk, lookupD, hn, ih]

theorem lookupD_addProdD (g : Grammar) (k : String) (p : Production) (nt : String) :
    lookupD (addProdD g k p) nt =
      if k = nt then (if p ∈ lookupD g nt then lookupD g nt else lookupD g nt ++ [p])
      else lookupD g nt := by
  induction g with
  | nil => by_cases hk : k = nt <;> simp [addProdD, lookupD, hk]
  | cons kv rest ih =>
      obtain ⟨k', ps⟩ := kv
      by_cases hk : k' = k
      · subst hk
        by_cases hn : k' = nt <;> simp [addProdD, lookupD, hn]
      · by_cases hn : k' = nt
        · subst hn
          have hkn : ¬ k = k' := fun h => hk h.symm
          simp [addProdD, hk, lookupD, hkn]
        · simp [addProdD, hk, lookupD, hn, ih]

theorem mem_lookupD_addProd {g : Grammar} {k : String} {p q : Production} {nt : String}
    (h : q ∈ lookupD (addProd g k p) nt) :
    q ∈ lookupD g nt ∨ (k = nt ∧ q = p) := by
  rw [lookupD_addProd] at h
  by_cases hk : k = nt
  · rw [if_pos hk] at h
    rcases List.mem_append.mp h with h' | h'
    · exact Or.inl h'
    · exact Or.inr ⟨hk, List.mem_singleton.mp h'⟩
  · rw [if_neg hk] at h
    exact Or.inl h

theorem mem_lookupD_addProdD {g : Grammar} {k : String} {p q : Production} {nt : String}
    (h : q ∈ lookupD (addProdD g k p) nt) :
    q ∈ lookupD g nt ∨ (k = nt ∧ q = p) := by
  rw [lookupD_addProdD] at h
  by_cases hk : k = nt
  · rw [if_pos hk] at h
    by_cases hp : p ∈ lookupD g nt
    · rw [if_pos hp] at h; exact Or.inl h
    · rw [if_neg hp] at h
      rcases List.mem_append.mp h with h' | h'
      · exact Or.inl h'
      · exact Or.inr ⟨hk, List.mem_singleton.mp h'⟩
  · rw [if_neg hk] at h
    exact Or.inl h

theorem mem_of_mem_lookupD {g : Grammar} {nt : String} {q : Production}
    (h : q ∈ lookupD g nt) : ∃ ps, (nt, ps) ∈ g ∧ q ∈ ps := by
  induction g with
  | nil => simp [lookupD] at h
  | cons kv rest ih =>
      obtain ⟨k, ps⟩ := kv
      simp only [lookupD] at h
      by_cases hk : k = nt
      · rw [if_pos hk] at h
        exact ⟨ps, by simp [hk], h⟩
      · rw [if_neg hk] at h
        obtain ⟨ps', hm, hq⟩ := ih h
        exact ⟨ps', List.mem_cons_of_mem _ hm, hq⟩

theorem mem_maskDelete {null : List String} {mask : Nat} :
    ∀ (prod : List String) (j : Nat) (x : String),
      x ∈ maskDelete null mask prod j → x ∈ prod := by
  intro prod
  induction prod with
  | nil => intro j x h; simp [maskDelete] at h
  | cons s rest ih =>
      intro j x h
      simp only [maskDelete] at h
      by_cases hn : null.contains s = true
      · rw [if_pos hn] at h
        by_cases hb : (mask >>> j) % 2 = 1
        · rw [if_pos hb] at h
          exact List.mem_cons_of_mem s (ih (j + 1) x h)
        · rw [if_neg hb] at h
          rcases List.mem_cons.mp h with h' | h'
          · exact h' ▸ List.mem_cons_self s rest
          · exact List.mem_cons_of_mem s (ih (j + 1) x h')
      · rw [if_neg hn] at h
        rcases List.mem_cons.mp h with h' | h'
        · exact h' ▸ List.mem_cons_self s rest
        · exact List.mem_cons_of_mem s (ih j x h')

theorem mem_of_mem_nullDeletions {null : List String} {prod np : List String}
    (h : np ∈ nullDeletions null prod) : ∀ x ∈ np, x ∈ prod := by
  intro x hx
  obtain ⟨mask, _, hmk⟩ := List.mem_map.mp h
  exact mem_maskDelete prod 0 x (hmk ▸ hx)

/-- Structural property of the final cleaning pass: every surviving
production came unchanged from the input grammar and is either of length 1
(any length-1 production survives — the source's ε-guard compares a tuple
to a list and never fires) or of length 2 with both symbols uppercase
strings. -/
theorem cleanGrammar_shape (g : Grammar) (start : String) :
    ∀ (nt : String) (prod : Production), prod ∈ lookupD (cleanGrammar g start) nt →
      (prod.length = 1 ∨ (prod.length = 2 ∧ prod.all pyIsUpper = true)) ∧
      ∃ kv, kv ∈ g ∧ kv.1 = nt ∧ prod ∈ kv.2 := by
  unfold cleanGrammar
  apply foldl_inv (P := fun cg => ∀ nt prod, prod ∈ lookupD cg nt →
    (prod.length = 1 ∨ (prod.length = 2 ∧ prod.all pyIsUpper = true)) ∧
    ∃ kv, kv ∈ g ∧ kv.1 = nt ∧ prod ∈ kv.2)
  · intro nt prod h; simp [lookupD] at h
  · intro cg kv hkv ih
    apply foldl_inv (P := fun cg => ∀ nt prod, prod ∈ lookupD cg nt →
      (prod.length = 1 ∨ (prod.length = 2 ∧ prod.all pyIsUpper = true)) ∧
      ∃ kv, kv ∈ g ∧ kv.1 = nt ∧ prod ∈ kv.2)
    · exact ih
    · intro cg' prod0 hprod0 ih' nt prod h
      by_cases h1 : prod0.length = 1
      · rw [if_pos h1] at h
        rcases mem_lookupD_addProd h with h' | ⟨hnt, hp⟩
        · exact ih' nt prod h'
        · subst hp
          exact ⟨Or.inl h1, ⟨kv, hkv, hnt, hprod0⟩⟩
      · rw [if_neg h1] at h
        by_cases h2 : (prod0.length = 2 && prod0.all pyIsUpper) = true
        · rw [if_pos h2] at h
          rcases mem_lookupD_addProd h with h' | ⟨hnt, hp⟩
          · exact ih' nt prod h'
          · subst hp
            rw [Bool.and_eq_true] at h2
            obtain ⟨h2a, h2b⟩ := h2
            exact ⟨Or.inr ⟨of_decide_eq_true h2a, h2b⟩, ⟨kv, hkv, hnt, hprod0⟩⟩
        · rw [if_neg h2] at h
          exact ih' nt prod h

/-! ### Claims -/

/-- C1: the claim asserts bounded language preservation,
`generateWords(G, start, L) == generateWords(toCnf(G).cnfGrammar, newStart, L)`
for every grammar `G` and bound `L`. The code violates it: for the grammar
parsed from `"S -> ε | a"` the start symbol occurs on no right-hand side, so
no fresh start is introduced, and epsilon elimination then drops the start's
`["ε"]` production with nothing recovering it; at bound 1 the source grammar
generates the two words `""` and `"a"` while the pipeline's output grammar
generates only `"a"`. Both enumeration runs below end with an exhausted
queue, so the word lists are the enumerator's final answers. -/
theorem C1_language_not_preserved :
    cfg_to_cnf_pipeline (parse_cfg "S -> ε | a") = some ([("S", [["a"]])], "S") ∧
    (genRun (parse_cfg "S -> ε | a") "S" 1 8).queue = [] ∧
    generate_words (parse_cfg "S -> ε | a") "S" 1 8 = ["", "a"] ∧
    (genRun [("S", [["a"]])] "S" 1 4).queue = [] ∧
    generate_words [("S", [["a"]])] "S" 1 4 = ["a"] := by
  exact ⟨by decide, by decide, by decide, by decide, by decide⟩

/-- C2 (counterexample): the claim asserts `isStrictCnf` of the pipeline
output for every grammar. For the grammar parsed from `"S -> a Z"` the
uppercase symbol `Z` is a terminal (it has no productions); the final
cleaning keeps `S → T1 Z` because both symbols are uppercase strings, yet
`Z` is not a nonterminal of the output, so the strict-CNF predicate is
false. -/
theorem C2_not_strict_cnf :
    cfg_to_cnf_pipeline (parse_cfg "S -> a Z") =
      some ([("S", [["T1", "Z"]]), ("T1", [["a"]])], "S") ∧
    isStrictCnf [("S", [["T1", "Z"]]), ("T1", [["a"]])] "S" = false := by
  exact ⟨by decide, by decide⟩

/-- C2 (amended): what the final cleaning actually guarantees of the
pipeline output, for every grammar: each production is of length 1 or of
length 2 with both symbols uppercase strings (Python's `str.isupper`) —
rather than length-2 productions over nonterminals and length-1 productions
over terminals. No confinement of `["ε"]` to the start symbol is
guaranteed either: the cleaning's ε-guard compares a tuple to a list and
never fires, so `["ε"]` survives under a non-start nonterminal (second
conjunct, with start symbol `X` and `["ε"]` kept under `S`). -/
theorem C2_cnf_shape :
    (∀ (g G' : Grammar) (s nt : String) (prod : Production),
      cfg_to_cnf_pipeline g = some (G', s) →
      prod ∈ lookupD G' nt →
        prod.length = 1 ∨ (prod.length = 2 ∧ prod.all pyIsUpper = true)) ∧
    lookupD (cleanGrammar [("S", [["ε"]])] "X") "S" = [["ε"]] := by
  constructor
  · intro g G' s nt prod hpipe hmem
    unfold cfg_to_cnf_pipeline at hpipe
    simp only [bind, Option.bind_eq_bind, Option.bind_eq_some, pure,
      Option.some.injEq, Prod.mk.injEq] at hpipe
    obtain ⟨g2, _, g3, _, hG, hs⟩ := hpipe
    subst hs
    exact (cleanGrammar_shape (binarize (isolateTerminals g3)) (step0 g).2 nt prod
      (by rw [← hG] at hmem; exact hmem)).1
  · decide

theorem C2_cnf_shape_witness :
    cfg_to_cnf_pipeline [("S", [["a"]])] = some ([("S", [["a"]])], "S") ∧
    (["a"] : Production) ∈ lookupD [("S", [["a"]])] "S" ∧
    ((["a"] : Production).length = 1 ∨
      ((["a"] : Production).length = 2 ∧ (["a"] : Production).all pyIsUpper = true)) :=
  ⟨by decide, by decide,
    C2_cnf_shape.1 [("S", [["a"]])] [("S", [["a"]])] "S" "S" ["a"] (by decide) (by decide)⟩

/-- C4: the claim describes left-to-right chain binarization
`A → X1 Y1, Y1 → X2 Y2, …, Y(n-2) → X(n-1) Xn` with collision-checked fresh
names. The code instead, for `S → A B C`, creates `X1` for the pair
`(A, B)`, gives `X1` the production `A B`, adds `S → A X1`, and then adds
`X1 → X1 C`; the chain's `X1 → B C` is never produced (and the fresh `X<n>`
names are never checked against existing grammar keys). -/
theorem C4_binarization_chain_broken :
    cfg_to_cnf_pipeline (parse_cfg "S -> A B C\nA -> a\nB -> b\nC -> c") =
      some ([("X1", [["A", "B"], ["X1", "C"]]), ("S", [["A", "X1"]]),
             ("A", [["a"]]), ("B", [["b"]]), ("C", [["c"]])], "S") ∧
    ¬ (["B", "C"] ∈ lookupD [("X1", [["A", "B"], ["X1", "C"]]), ("S", [["A", "X1"]]),
             ("A", [["a"]]), ("B", [["b"]]), ("C", [["c"]])] "X1") := by
  exact ⟨by decide, by decide⟩

/-- C6 (counterexample): the claim says the first stage always introduces a
fresh start symbol probing `S0`, `S1`, …. On the grammar with the single
rule `S → a` the start symbol occurs on no right-hand side, and step 0
leaves the grammar unchanged: no start symbol is introduced at all. -/
theorem C6_no_unconditional_start :
    step0 [("S", [["a"]])] = ([("S", [["a"]])], "S") ∧
    isNT (step0 [("S", [["a"]])]).1 "S0" = false := by
  exact ⟨by decide, by decide⟩

/-- C6 (amended): step 0 introduces the fixed name `S0` (no probing of
`S1`, …) exactly when the original start symbol occurs on some right-hand
side; when it does and `S0` is not already a key, the new entry is prepended
with the single production containing the original start symbol. -/
theorem C6_start_conditional :
    ∀ g : Grammar, g ≠ [] →
      (startOnRHS g (firstKey g) = false → step0 g = (g, firstKey g)) ∧
      (startOnRHS g (firstKey g) = true → isNT g "S0" = false →
        step0 g = (("S0", [[firstKey g]]) :: g, "S0")) := by
  intro g _
  constructor
  · intro h
    simp [step0, h]
  · intro h hno
    have hall : ∀ kv ∈ g, (!(kv.1 == "S0")) = true := by
      intro kv hkv
      by_contra hc
      have hb : (kv.1 == "S0") = true := by
        cases hb : (kv.1 == "S0") <;> simp [hb] at hc ⊢
      have ht : isNT g "S0" = true := by
        unfold isNT
        exact List.any_eq_true.mpr ⟨kv, hkv, hb⟩
      rw [hno] at ht
      exact Bool.false_ne_true ht
    have hfil : g.filter (fun kv => !(kv.1 == "S0")) = g :=
      List.filter_eq_self.mpr hall
    simp [step0, h, mergeS0, hno, hfil]

theorem C6_start_conditional_witness :
    step0 [("S", [["a"]])] = ([("S", [["a"]])], "S") ∧
    step0 [("S", [["S"]])] = ([("S0", [["S"]]), ("S", [["S"]])], "S0") :=
  ⟨(C6_start_conditional [("S", [["a"]])] (by decide)).1 (by decide),
   (C6_start_conditional [("S", [["S"]])] (by decide)).2 (by decide) (by decide)⟩

/-- C9: for the grammar parsed from `"S -> aS | b"` with start `S` and
length bound 3, the enumerator's queue empties (the recursion terminates
because each expansion of `S` past length 3 is pruned) and the returned word
set is exactly `b`, `ab`, `aab` — in particular `aaab` is absent. -/
theorem C9_scenario2 :
    parse_cfg "S -> aS | b" = [("S", [["a", "S"], ["b"]])] ∧
    (genRun (parse_cfg "S -> aS | b") "S" 3 12).queue = [] ∧
    generate_words (parse_cfg "S -> aS | b") "S" 3 12 = ["b", "ab", "aab"] := by
  exact ⟨by decide, by decide, by decide⟩

/-- C10: the final cleaning keeps only productions of length 1 or of
length 2 with both symbols uppercase strings, each taken unchanged from its
input — so every other production is removed with no replacement; and
concretely, for the grammar parsed from `"S -> 0 0"` (digit terminals, not
uppercase), the pipeline returns the empty grammar: the production and the
nonterminal `S` itself are silently gone. -/
theorem C10_cleaning_drops :
    (∀ (g : Grammar) (start nt : String) (prod : Production),
      prod ∈ lookupD (cleanGrammar g start) nt →
        (prod.length = 1 ∨ (prod.length = 2 ∧ prod.all pyIsUpper = true)) ∧
        ∃ kv, kv ∈ g ∧ kv.1 = nt ∧ prod ∈ kv.2) ∧
    cfg_to_cnf_pipeline (parse_cfg "S -> 0 0") = some ([], "S") := by
  exact ⟨fun g start nt prod h => cleanGrammar_shape g start nt prod h, by decide⟩

/-- Mapping the `E`-replacement over characters none of which is `E` does
nothing. -/
theorem mapE_eq_self :
    ∀ l : List Char, 'E' ∉ l →
      l.map (fun c => if c = 'E' then 'ε' else c) = l := by
  intro l
  induction l with
  | nil => intro _; rfl
  | cons c t ih =>
      intro h
      have hc : ¬ c = 'E' := fun hc => h (hc ▸ List.mem_cons_self c t)
      simp only [List.map_cons, if_neg hc]
      rw [ih (fun hm => h (List.mem_cons_of_mem c hm))]

theorem mk_toList (s : String) : String.mk s.toList = s := by
  cases s
  rfl

theorem replaceE_eq_self {p : String} (h : 'E' ∉ p.toList) : replaceE p = p := by
  unfold replaceE
  rw [mapE_eq_self p.toList h, mk_toList]

/-- Replacing `E` by `ε` twice is the same as doing it once. -/
theorem mapE_idem :
    ∀ l : List Char,
      (l.map (fun c => if c = 'E' then 'ε' else c)).map
        (fun c => if c = 'E' then 'ε' else c) =
      l.map (fun c => if c = 'E' then 'ε' else c) := by
  intro l
  induction l with
  | nil => rfl
  | cons c t ih =>
      simp only [List.map_cons, ih]
      by_cases hc : c = 'E' <;> simp [hc]

theorem replaceE_idem (p : String) : replaceE (replaceE p) = replaceE p := by
  unfold replaceE
  rw [show (String.mk (p.toList.map fun c => if c = 'E' then 'ε' else c)).toList =
      p.toList.map (fun c => if c = 'E' then 'ε' else c) from rfl, mapE_idem]

/-- C7 (counterexample): the claim says a whitespace-containing alternative
parses to its whitespace-delimited tokens kept verbatim. The parser first
replaces every occurrence of the character `E` by `ε`, so the alternative
`A E B` of `"S -> A E B"` parses to `["A", "ε", "B"]`, not to the verbatim
tokens `["A", "E", "B"]`. -/
theorem C7_tokens_not_verbatim :
    parse_cfg "S -> A E B" = [("S", [["A", "ε", "B"]])] ∧
    lookupD (parse_cfg "S -> A E B") "S" ≠ [["A", "E", "B"]] := by
  exact ⟨by decide, by decide⟩

/-- C7 (amended): the parser's per-alternative behavior after accounting for
the global `E → ε` replacement: `E` and `ε` standing alone both parse to
`["ε"]`; on alternatives containing no `E` the claimed behavior holds
verbatim — whitespace-containing alternatives split into their
whitespace-delimited tokens, and whitespace-free ones into one
single-character symbol per character; and in general an alternative parses
exactly as its `E`-replaced form does. -/
theorem C7_tokenization :
    parseAlt "E" = ["ε"] ∧ parseAlt "ε" = ["ε"] ∧
    (∀ p : String, 'E' ∉ p.toList → p ≠ "ε" →
      (p.toList.contains ' ' = true → parseAlt p = splitPyWs p) ∧
      (p.toList.contains ' ' = false → parseAlt p = p.toList.map Char.toString)) ∧
    (∀ p : String, parseAlt (replaceE p) = parseAlt p) := by
  refine ⟨by decide, by decide, ?_, ?_⟩
  · intro p hE hne
    have hq : replaceE p = p := replaceE_eq_self hE
    constructor
    · intro hsp
      have hmem : ' ' ∈ p.data := by simpa using hsp
      simp [parseAlt, hq, hne, hsp]
      intro hc
      exact absurd hmem hc
    · intro hsp
      have hmem : ' ' ∉ p.data := by simpa using hsp
      simp [parseAlt, hq, hne, hsp]
      intro hc
      exact absurd hc hmem
  · intro p
    unfold parseAlt
    rw [replaceE_idem]

theorem C7_tokenization_witness :
    parseAlt "A B" = splitPyWs "A B" ∧
    parseAlt "AB" = "AB".toList.map Char.toString :=
  ⟨(C7_tokenization.2.2.1 "A B" (by decide) (by decide)).1 (by decide),
   (C7_tokenization.2.2.1 "AB" (by decide) (by decide)).2 (by decide)⟩

/-- A line whose stripped form contains no derivation arrow leaves the
grammar untouched (the source's `continue  # skip invalid lines`). -/
theorem processLine_noArrow (g : Grammar) (line : String)
    (h : findArrow (strip line).toList = none) : processLine g line = g := by
  unfold processLine
  by_cases hb : strip line = ""
  · simp [hb]
  · have h' : findArrow (strip line).data = none := h
    simp [hb, h']

/-- C8 (counterexample): the claim says parsing fails with a `MalformedRule`
error on any text containing a non-blank line without an arrow. The parser
has no failure path at all: the arrowless line `xyz` is silently skipped and
a grammar is returned (the empty grammar when nothing else parses). -/
theorem C8_no_malformed_rule_error :
    parse_cfg "S -> a\nxyz" = [("S", [["a"]])] ∧
    parse_cfg "xyz" = [] := by
  exact ⟨by decide, by decide⟩

/-- C8 (amended): a non-blank line with no recognizable arrow is silently
skipped — parsing any line list with such a line inserted returns exactly
the grammar of the list without it, rather than failing. -/
theorem C8_skips_arrowless_lines :
    ∀ (g0 : Grammar) (ls1 ls2 : List String) (junk : String),
      findArrow (strip junk).toList = none →
      parseLines g0 (ls1 ++ junk :: ls2) = parseLines g0 (ls1 ++ ls2) := by
  intro g0 ls1 ls2 junk h
  unfold parseLines
  rw [List.foldl_append, List.foldl_append, List.foldl_cons,
    processLine_noArrow _ _ h]

theorem C8_skips_arrowless_lines_witness :
    findArrow (strip "xyz").toList = none ∧
    parseLines [] (["S -> a"] ++ "xyz" :: []) = parseLines [] (["S -> a"] ++ []) :=
  ⟨by decide, C8_skips_arrowless_lines [] ["S -> a"] [] "xyz" (by decide)⟩

/-- After `n` iterations on the grammar `S → S S`, the enumerator's queue
holds exactly the single sentential form of `n + 1` copies of `S`: the
realized terminal length stays 0, so the pruning never fires and each step
replaces the front sequence by a longer one. -/
theorem genRun_SS (n : Nat) :
    genRun [("S", [["S", "S"]])] "S" 1 n =
      { queue := [List.replicate (n + 1) "S"], words := [] } := by
  have h1 : isNT [("S", [["S", "S"]])] "S" = true := by decide
  have hp : (!isNT [("S", [["S", "S"]])] "S" && decide (("S" : String) ≠ "ε")) = false := by
    decide
  have hfil : ∀ m : Nat, (List.replicate m "S").filter
      (fun s => !isNT [("S", [["S", "S"]])] s && s ≠ "ε") = [] := by
    intro m
    induction m with
    | zero => rfl
    | succ m ihm =>
        rw [List.replicate_succ, List.filter_cons, hp]
        simpa using ihm
  induction n with
  | zero => simp [genRun, Nat.iterate]
  | succ n ih =>
      have hall : (List.replicate (n + 1) "S").all
          (fun s => !isNT [("S", [["S", "S"]])] s) = false := by
        rw [List.replicate_succ, List.all_cons]
        rw [show (!isNT [("S", [["S", "S"]])] "S") = false by rw [h1]; rfl]
        rfl
      have hexp : expandFirst [("S", [["S", "S"]])] (List.replicate (n + 1) "S") =
          [List.replicate (n + 2) "S"] := by
        rw [List.replicate_succ]
        simp only [expandFirst, h1, if_true]
        rw [show lookupD [("S", [["S", "S"]])] "S" = [["S", "S"]] from rfl]
        simp only [List.map_cons, List.map_nil]
        rw [show List.filter (fun t : String => t ≠ "ε") ["S", "S"] = ["S", "S"] by decide]
        simp [List.replicate_succ]
      have hstep : genStep [("S", [["S", "S"]])] 1
          { queue := [List.replicate (n + 1) "S"], words := [] } =
          { queue := [List.replicate (n + 2) "S"], words := [] } := by
        simp only [genStep, realized, hfil, hall, hexp]
        simp [String.join]
      have hit : genRun [("S", [["S", "S"]])] "S" 1 (n + 1) =
          genStep [("S", [["S", "S"]])] 1 (genRun [("S", [["S", "S"]])] "S" 1 n) := by
        simp [genRun, Function.iterate_succ_apply']
      rw [hit, ih, hstep]

/-- C3 (counterexample): the claim asserts termination of the enumerator for
every grammar, naming `S → S S` as an example. For the grammar with exactly
that rule (and length bound 1) the queue is nonempty after every number of
iterations: the breadth-first search never exhausts its queue, because the
pruning compares only the realized terminal count, which never grows. -/
theorem C3_nontermination :
    ¬ ∃ n : Nat, (genRun [("S", [["S", "S"]])] "S" 1 n).queue = [] := by
  rintro ⟨n, hn⟩
  rw [genRun_SS n] at hn
  exact List.cons_ne_nil _ _ hn

/-- C3 (amended): what the pruning actually gives. A dequeued sequence whose
realized terminal length exceeds the bound is discarded without being
expanded or recorded, which terminates the search on recursive grammars
whose recursion accumulates terminals — concretely, for `S → aS | b` at
bound 3 the queue is exhausted — but not for every grammar (see the
counterexample for `S → S S`, whose sequences never gain terminals). -/
theorem C3_pruning :
    (∀ (g : Grammar) (maxLen : Nat) (seq : List String)
        (rest : List (List String)) (ws : List String),
      (realized g seq).length > maxLen →
      genStep g maxLen { queue := seq :: rest, words := ws } =
        { queue := rest, words := ws }) ∧
    (genRun (parse_cfg "S -> aS | b") "S" 3 12).queue = [] := by
  constructor
  · intro g maxLen seq rest ws h
    simp only [genStep]
    rw [if_pos h]
  · decide

theorem C3_pruning_witness :
    (realized [] ["a"]).length > 0 ∧
    genStep [] 0 { queue := [["a"]], words := [] } = { queue := [], words := [] } :=
  ⟨by decide, C3_pruning.1 [] 0 ["a"] [] [] (by decide)⟩

/-- C5 (counterexample): the claim asserts, for every grammar, that after
the epsilon-elimination stage only the start symbol owns `["ε"]` and that
unit elimination does not undo this. For the grammar
`S → a S | ε | S0` (the symbol `S0` is a terminal here), step 0 makes `S0`
the new start; epsilon elimination is indeed confined (only `S0` owns
`["ε"]`), but the unit chain `S → S0` then copies `S0`'s productions —
including `["ε"]` — to `S`, a nonterminal other than the start. -/
theorem C5_unit_undoes_confinement :
    step0 [("S", [["a", "S"], ["ε"], ["S0"]])] =
      ([("S0", [["S"]]), ("S", [["a", "S"], ["ε"], ["S0"]])], "S0") ∧
    remove_null_productions [("S0", [["S"]]), ("S", [["a", "S"], ["ε"], ["S0"]])] "S0" =
      [("S0", [["S"], ["ε"]]), ("S", [["a", "S"], ["a"], ["S0"]])] ∧
    remove_unit_productions [("S0", [["S"], ["ε"]]), ("S", [["a", "S"], ["a"], ["S0"]])] =
      some [("S0", [["ε"], ["a", "S"], ["a"]]), ("S", [["a", "S"], ["a"], ["ε"]])] ∧
    ["ε"] ∈ lookupD [("S0", [["ε"], ["a", "S"], ["a"]]),
      ("S", [["a", "S"], ["a"], ["ε"]])] "S" := by
  exact ⟨by decide, by decide, by decide, by decide⟩

/-- The symbol `s` occurs on some right-hand side of `g`. -/
def inRHS (g : Grammar) (s : String) : Prop :=
  ∃ kv, kv ∈ g ∧ ∃ p, p ∈ kv.2 ∧ s ∈ p

/-- Processing one dequeued nonterminal of the unit-closure search preserves
the invariants: every queued nonterminal is the seed or occurs on a
right-hand side, and a collected `["ε"]` forces the seed to be the start
(given that only the start owns `["ε"]` and the start occurs on no
right-hand side). -/
theorem unitVisit_inv (g : Grammar) (start nt : String)
    (h1 : ∀ kv ∈ g, ["ε"] ∈ kv.2 → kv.1 = start)
    (h2 : ∀ kv ∈ g, ∀ p ∈ kv.2, start ∉ p)
    (st : UState) (current : String)
    (hq : ∀ c ∈ st.queue, c = nt ∨ inRHS g c)
    (ha : ∀ p ∈ st.acc, p = ["ε"] → nt = start)
    (hc : current = nt ∨ inRHS g current) :
    (∀ c ∈ (unitVisit g st current).queue, c = nt ∨ inRHS g c) ∧
    (∀ p ∈ (unitVisit g st current).acc, p = ["ε"] → nt = start) := by
  unfold unitVisit
  apply foldl_inv (P := fun st' : UState =>
    (∀ c ∈ st'.queue, c = nt ∨ inRHS g c) ∧
    (∀ p ∈ st'.acc, p = ["ε"] → nt = start))
  · exact ⟨hq, ha⟩
  · rintro st' prod hprod ⟨ihq, iha⟩
    obtain ⟨ps, hmemg, hin⟩ := mem_of_mem_lookupD hprod
    have hacc_new : prod = ["ε"] → nt = start := by
      intro hpe
      subst hpe
      have hcs : current = start := h1 (current, ps) hmemg hin
      rcases hc with hnt | hrhs
      · rw [← hnt, hcs]
      · exfalso
        obtain ⟨kv, hkv, p, hp, hsp⟩ := hrhs
        rw [hcs] at hsp
        exact h2 kv hkv p hp hsp
    have hext_acc : (∀ p ∈ st'.acc ++ [prod], p = ["ε"] → nt = start) := by
      intro p hp
      rcases List.mem_append.mp hp with hp' | hp'
      · exact iha p hp'
      · rw [List.mem_singleton.mp hp']
        exact hacc_new
    by_cases hu : (prod.length = 1 && isNT g (prod.headD "")) = true
    · rw [if_pos hu]
      by_cases hv : st'.visited.contains (prod.headD "") = true
      · rw [if_pos hv]
        exact ⟨ihq, iha⟩
      · rw [if_neg hv]
        refine ⟨?_, iha⟩
        intro c hcq
        rcases List.mem_append.mp hcq with hcq' | hcq'
        · exact ihq c hcq'
        · rw [List.mem_singleton.mp hcq']
          rw [Bool.and_eq_true] at hu
          have hne : prod ≠ [] := by
            intro hnil
            rw [hnil] at hu
            simp at hu
        -- the head of a nonempty production occurs in it
          have hhead : prod.headD "" ∈ prod := by
            rcases hpr : prod with _ | ⟨a, l⟩
            · exact absurd hpr hne
            · simp [List.headD]
          exact Or.inr ⟨(current, ps), hmemg, prod, hin, hhead⟩
    · rw [if_neg hu]
      by_cases hco : st'.acc.contains prod = true
      · rw [if_pos hco]
        exact ⟨ihq, iha⟩
      · rw [if_neg hco]
        exact ⟨ihq, hext_acc⟩

theorem unitLoop_nil (g : Grammar) (fuel : Nat) (v : List String)
    (a : List Production) :
    unitLoop g fuel { queue := [], visited := v, acc := a } = some a := by
  cases fuel <;> rfl

theorem unitLoop_zero_cons (g : Grammar) (c : String) (rest : List String)
    (v : List String) (a : List Production) :
    unitLoop g 0 { queue := c :: rest, visited := v, acc := a } = Option.none := rfl

theorem unitLoop_succ_cons (g : Grammar) (f : Nat) (c : String) (rest : List String)
    (v : List String) (a : List Production) :
    unitLoop g (f + 1) { queue := c :: rest, visited := v, acc := a } =
      unitLoop g f (unitVisit g { queue := rest, visited := v, acc := a } c) := rfl

/-- The unit-closure loop only collects `["ε"]` for the start's own closure:
if only the start owns `["ε"]` and the start occurs on no right-hand side,
then a closure containing `["ε"]` belongs to the start itself. -/
theorem unitLoop_inv (g : Grammar) (start nt : String)
    (h1 : ∀ kv ∈ g, ["ε"] ∈ kv.2 → kv.1 = start)
    (h2 : ∀ kv ∈ g, ∀ p ∈ kv.2, start ∉ p) :
    ∀ (fuel : Nat) (st : UState) (res : List Production),
      (∀ c ∈ st.queue, c = nt ∨ inRHS g c) →
      (∀ p ∈ st.acc, p = ["ε"] → nt = start) →
      unitLoop g fuel st = some res →
      ∀ p ∈ res, p = ["ε"] → nt = start := by
  intro fuel
  induction fuel with
  | zero =>
      intro st res hq ha hl
      obtain ⟨q, v, a⟩ := st
      rcases q with _ | ⟨c, rest⟩
      · rw [unitLoop_nil] at hl
        injection hl with h
        rw [← h]
        exact ha
      · rw [unitLoop_zero_cons] at hl
        exact absurd hl (by simp)
  | succ f ih =>
      intro st res hq ha hl
      obtain ⟨q, v, a⟩ := st
      rcases q with _ | ⟨c, rest⟩
      · rw [unitLoop_nil] at hl
        injection hl with h
        rw [← h]
        exact ha
      · rw [unitLoop_succ_cons] at hl
        have hc : c = nt ∨ inRHS g c := hq c (List.mem_cons_self _ _)
        have hrest : ∀ c' ∈ rest, c' = nt ∨ inRHS g c' := fun c' h' =>
          hq c' (List.mem_cons_of_mem _ h')
        have hinv := unitVisit_inv g start nt h1 h2
          { queue := rest, visited := v, acc := a } c hrest ha hc
        exact ih _ res hinv.1 hinv.2 hl

/-- Unpacking the per-nonterminal closures computed by
`remove_unit_productions`: each produced entry is the closure of its own
key. -/
theorem mapM_unit_entries (g : Grammar) (N : Nat) :
    ∀ (l : List (String × List Production)) (entries : List (String × List Production)),
      l.mapM (fun kv => (unitLoop g N { queue := [kv.1], visited := [], acc := [] }).map
        (fun acc => (kv.1, acc))) = some entries →
      ∀ e ∈ entries, unitLoop g N { queue := [e.1], visited := [], acc := [] } = some e.2 := by
  intro l
  induction l with
  | nil =>
      intro entries h e he
      simp only [List.mapM_nil, pure, Option.some.injEq] at h
      rw [← h] at he
      simp at he
  | cons kv t ih =>
      intro entries h e he
      rw [List.mapM_cons] at h
      simp only [bind, Option.bind_eq_bind, Option.bind_eq_some, pure,
        Option.some.injEq, Option.map_eq_some'] at h
      obtain ⟨b, ⟨acc, hacc, hbeq⟩, bs, hbs, hcons⟩ := h
      rw [← hcons] at he
      rcases List.mem_cons.mp he with he' | he'
      · rw [he', ← hbeq]
        simpa using hacc
      · exact ih bs (by simpa using hbs) e he'

/-- Whatever nullable set is used, the rebuilding loop of epsilon
elimination only ever records `["ε"]` under the start symbol, provided the
epsilon sentinel occurs in its input only as the whole production `["ε"]`
(otherwise a deletion variant of an epsilon-containing production can itself
be `["ε"]`). -/
theorem nullRebuild_confines (null : List String) (g : Grammar) (start nt : String)
    (hwf : ∀ kv ∈ g, ∀ p ∈ kv.2, "ε" ∈ p → p = ["ε"])
    (hmem : ["ε"] ∈ lookupD (nullRebuild null start g) nt) : nt = start := by
  unfold nullRebuild at hmem
  have key : ∀ nt', ["ε"] ∈ lookupD (g.foldl (fun ng kv =>
      kv.2.foldl (fun ng prod =>
        if prod = ["ε"] then ng
        else
          (nullDeletions null prod).foldl (fun ng np =>
            if np = [] then
              if kv.1 = start then addProdD ng kv.1 ["ε"] else ng
            else addProdD ng kv.1 np) ng) ng) []) nt' → nt' = start := by
    apply foldl_inv (P := fun ng => ∀ nt',
      ["ε"] ∈ lookupD ng nt' → nt' = start)
    · intro nt' h
      simp [lookupD] at h
    · intro ng kv hkv ih
      apply foldl_inv (P := fun ng => ∀ nt',
        ["ε"] ∈ lookupD ng nt' → nt' = start)
      · exact ih
      · intro ng' prod0 hprod0 ih'
        by_cases hpe0 : prod0 = ["ε"]
        · rw [if_pos hpe0]
          exact ih'
        · rw [if_neg hpe0]
          apply foldl_inv (P := fun ng => ∀ nt',
            ["ε"] ∈ lookupD ng nt' → nt' = start)
          · exact ih'
          · intro ng'' np hnp ih''
            by_cases hne : np = []
            · rw [if_pos hne]
              by_cases hks : kv.1 = start
              · rw [if_pos hks]
                intro nt' h
                rcases mem_lookupD_addProdD h with h' | ⟨hk, _⟩
                · exact ih'' nt' h'
                · rw [← hk]
                  exact hks
              · rw [if_neg hks]
                exact ih''
            · rw [if_neg hne]
              intro nt' h
              rcases mem_lookupD_addProdD h with h' | ⟨hk, hpp⟩
              · exact ih'' nt' h'
              · exfalso
                have hmem0 : "ε" ∈ np := by
                  rw [← hpp]
                  exact List.mem_singleton.mpr rfl
                have hmem1 : "ε" ∈ prod0 :=
                  mem_of_mem_nullDeletions hnp "ε" hmem0
                exact hpe0 (hwf kv hkv prod0 hprod0 hmem1)
  exact key nt hmem

/-- C5 (amended): with the two caveats the counterexample forces. (i) For
every grammar in which the epsilon sentinel occurs only as the whole
production `["ε"]` (the spec's data-model invariant — the parser can violate
it via its `E`-replacement), the epsilon-elimination stage confines `["ε"]`
to the start symbol passed to it. (ii) Unit elimination preserves the
confinement only under the additional premise that the start symbol occurs
on no right-hand side — which step 0 ensures only when it actually inserts
a fresh start whose name was not already in use (the counterexample's
grammar uses `S0` as an ordinary symbol and violates exactly this
premise). -/
theorem C5_confinement :
    (∀ (g : Grammar) (start nt : String),
      (∀ kv ∈ g, ∀ p ∈ kv.2, "ε" ∈ p → p = ["ε"]) →
      ["ε"] ∈ lookupD (remove_null_productions g start) nt → nt = start) ∧
    (∀ (g g' : Grammar) (start nt : String),
      (∀ kv ∈ g, ["ε"] ∈ kv.2 → kv.1 = start) →
      (∀ kv ∈ g, ∀ p ∈ kv.2, start ∉ p) →
      remove_unit_productions g = some g' →
      ["ε"] ∈ lookupD g' nt → nt = start) := by
  constructor
  · intro g start nt hwf hmem
    exact nullRebuild_confines (nullableFix g) g start nt hwf hmem
  · intro g g' start nt h1 h2 hru hmem
    unfold remove_unit_productions at hru
    simp only [bind, Option.bind_eq_bind, Option.bind_eq_some, pure,
      Option.some.injEq] at hru
    obtain ⟨entries, hentries, hfil⟩ := hru
    obtain ⟨ps, hpg, hin⟩ := mem_of_mem_lookupD hmem
    rw [← hfil] at hpg
    have hpe : (nt, ps) ∈ entries := List.mem_of_mem_filter hpg
    have hloop := mapM_unit_entries g (g.length + 1) g entries hentries (nt, ps) hpe
    exact unitLoop_inv g start nt h1 h2 (g.length + 1)
      { queue := [nt], visited := [], acc := [] } ps
      (fun c hc => Or.inl (List.mem_singleton.mp hc))
      (fun p hp => absurd hp (List.not_mem_nil p))
      hloop ["ε"] hin rfl

theorem C5_confinement_witness :
    ((∀ kv ∈ [("S0", [["S"]]), ("S", [["ε"]])], ∀ p ∈ kv.2, "ε" ∈ p → p = ["ε"]) ∧
      ["ε"] ∈ lookupD
        (remove_null_productions [("S0", [["S"]]), ("S", [["ε"]])] "S0") "S0" ∧
      "S0" = "S0") ∧
    ((∀ kv ∈ [("S0", [["ε"]])], ["ε"] ∈ kv.2 → kv.1 = "S0") ∧
      remove_unit_productions [("S0", [["ε"]])] = some [("S0", [["ε"]])] ∧
      "S0" = "S0") :=
  ⟨⟨by decide, by decide,
    C5_confinement.1 [("S0", [["S"]]), ("S", [["ε"]])] "S0" "S0"
      (by decide) (by decide)⟩,
   ⟨by decide, by decide,
    C5_confinement.2 [("S0", [["ε"]])] [("S0", [["ε"]])] "S0" "S0"
      (by decide) (by decide) (by decide) (by decide)⟩⟩

theorem C10_cleaning_drops_witness :
    (["T1", "Z"] : Production) ∈ lookupD (cleanGrammar [("S", [["T1", "Z"]])] "S") "S" ∧
    (((["T1", "Z"] : Production).length = 1 ∨
      ((["T1", "Z"] : Production).length = 2 ∧ (["T1", "Z"] : Production).all pyIsUpper = true)) ∧
     ∃ kv, kv ∈ [("S", [["T1", "Z"]])] ∧ kv.1 = "S" ∧ (["T1", "Z"] : Production) ∈ kv.2) :=
  ⟨by decide, C10_cleaning_drops.1 [("S", [["T1", "Z"]])] "S" "S" ["T1", "Z"] (by decide)⟩

end CnfConverter
